import Mathlib

/-!
Shallow embedding, in Lean 4, of the core logic of the `no_more_bad_chess_moves`
repository (files `analyse_games.py`, `no_more_bad_chess_moves.py`, `mychess.py`),
together with theorems settling the specification claims about it.

Python strings are modelled as `List Char` (for the comment machinery of
`analyse_games.py`, where character-level scanning matters) or as Lean `String`
(for position keys and labels).  Python floats that only ever hold exact decimal
quantities (score/100 values, thresholds, elapsed times) are modelled as `ℚ`;
the transcendental evaluation-bar curve of `mychess.py` is modelled over `ℝ`.
Engine (oracle) interaction is external: oracle responses appear as explicit
inputs, and the engine-driven `_process_move` continuation of the click handlers
is an explicit function parameter (the illegal-move paths never invoke it).
-/

namespace Py

/-- Python `str.isspace` on the ASCII whitespace characters recognised by
`str.strip()` and by the `\s` class of the `re` module on ASCII text:
space, tab, newline, carriage return, vertical tab, form feed. -/
def isPySpace (c : Char) : Bool :=
  c = ' ' || c = '\t' || c = '\n' || c = '\r' || c = '\x0b' || c = '\x0c'

/-- Leading-whitespace removal, the left half of Python `str.strip()`. -/
def stripLeft (l : List Char) : List Char := l.dropWhile isPySpace

/-- Trailing-whitespace removal, the right half of Python `str.strip()`. -/
def stripRight (l : List Char) : List Char := (l.reverse.dropWhile isPySpace).reverse

/-- Python `str.strip()` with no argument: remove leading and trailing whitespace. -/
def pyStrip (l : List Char) : List Char := stripRight (stripLeft l)

/-- Python `str.strip()` on a Lean `String`. -/
def pyStripStr (s : String) : String := ⟨pyStrip s.data⟩

/-- Python substring containment `pat in s`. -/
def hasSubstr (pat : List Char) : List Char → Bool
  | [] => pat.isEmpty
  | c :: rest => pat.isPrefixOf (c :: rest) || hasSubstr pat rest

/-- The first character, if any, is not whitespace. -/
def headOk (l : List Char) : Bool :=
  match l with
  | [] => true
  | c :: _ => !isPySpace c

/-- The last character, if any, is not whitespace. -/
def lastOk (l : List Char) : Bool := headOk l.reverse

end Py

namespace Pool

/-- One row of the persisted training-position table (columns
`["position", "time_to_complete"]`, shared by `analyse_games.py` and
`no_more_bad_chess_moves.py`). -/
structure PosRow where
  position : String
  time_to_complete : ℚ
deriving DecidableEq

/-- The uniqueness invariant claimed for the pool: at most one row per
distinct position string. -/
def uniquePositions (df : List PosRow) : Prop := (df.map PosRow.position).Nodup

instance (df : List PosRow) : Decidable (uniquePositions df) := by
  unfold uniquePositions; infer_instance

end Pool

namespace AnalyseGames

/-- An engine score from White's point of view, as returned by
`info["score"].white()` in python-chess: either a centipawn value or a signed
mate distance. -/
inductive PovScore where
  | cp (n : ℤ)
  | mate (n : ℤ)
deriving DecidableEq

/-- Decimal rendering of `cp / 100` with two digits after the point, the value
of Python `f"{cp/100:.2f}"` for an integer centipawn score `cp` (for integers of
the magnitudes produced by the engine the float division and formatting are
exact). -/
def formatCp (cp : ℤ) : String :=
  (if cp < 0 then "-" else "") ++ toString (cp.natAbs / 100) ++ "." ++
    (if cp.natAbs % 100 < 10 then "0" else "") ++ toString (cp.natAbs % 100)

/-- `get_eval_and_score` of `analyse_games.py` (lines 19-31): extract the
centipawn score and the formatted evaluation string from an engine score.
A mate in `n` saturates to `10000` when `n > 0` and to `-10000` otherwise, with
label `"#" ++ n`; a centipawn score passes through unchanged with label
`cp/100` to two decimals. -/
def get_eval_and_score (score : PovScore) : ℤ × String :=
  match score with
  | .mate n => (if n > 0 then 10000 else -10000, "#" ++ toString n)
  | .cp n => (n, formatCp n)

/-- One entry of a multipv engine response: its score and principal variation.
Moves are modelled as opaque identifiers. -/
structure EngineInfo where
  score : PovScore
  pv : List Nat
deriving DecidableEq

/-- The value of `-BLUNDER_THRESHOLD * 100` with `BLUNDER_THRESHOLD = -2.8`:
the IEEE-754 double product `2.8 * 100` rounds to exactly `280.0`, and the
comparisons in the source are against integer centipawn values, so the
threshold is exactly the integer 280. -/
def blunderThresholdCp : ℤ := 280

/-- The value of `-MISTAKE_THRESHOLD * 100` with `MISTAKE_THRESHOLD = -1.7`:
the double product `1.7 * 100` rounds to exactly `170.0`. -/
def mistakeThresholdCp : ℤ := 170

/-- The value of `-INACCURACY_THRESHOLD * 100` with `INACCURACY_THRESHOLD = -0.8`:
the double product `0.8 * 100` rounds to exactly `80.0`. -/
def inaccuracyThresholdCp : ℤ := 80

/-- `detect_miss_or_only` of `analyse_games.py` (lines 47-66).  `multi` is the
oracle's multipv-2 response for the pre-move position and `move` the move
actually played.  The outer `Option` is the exception monad: `none` models the
`IndexError` raised when the top candidate has an empty principal variation
(`best_info["pv"][0]`).  The inner `Option String` is the function's Python
return value. -/
def detect_miss_or_only (multi : List EngineInfo) (move : Nat) : Option (Option String) :=
  match multi with
  | best_info :: second_info :: _ =>
    match best_info.pv with
    | [] => none
    | best_mv :: _ =>
      let best_cp := (get_eval_and_score best_info.score).1
      let second_cp := (get_eval_and_score second_info.score).1
      let diff := best_cp - second_cp
      some (if diff > blunderThresholdCp then
              if move = best_mv then some "Only move. " else some "Miss. "
            else none)
  | _ => some none

/-- python-chess `chess.pgn.NAG_MISTAKE`. -/
def NAG_MISTAKE : Nat := 2

/-- python-chess `chess.pgn.NAG_BLUNDER`. -/
def NAG_BLUNDER : Nat := 4

/-- python-chess `chess.pgn.NAG_DUBIOUS_MOVE`. -/
def NAG_DUBIOUS_MOVE : Nat := 6

/-- `classify_move` of `analyse_games.py` (lines 69-97).  `multi` is the fresh
multipv-2 oracle response that `detect_miss_or_only` obtains inside the call;
`matchesBestSan` is the value of `best_sans and move == board.parse_san(best_sans[0])`
(SAN parsing is external).  The outer `Option` propagates the possible
`IndexError` from `detect_miss_or_only`.  Severity comparison is on
`diff = abs(prev_cp - curr_cp)` against the exact integer thresholds 280/170/80
(see the threshold constants). -/
def classify_move (prev_cp curr_cp : ℤ) (move : Nat) (multi : List EngineInfo)
    (matchesBestSan : Bool) : Option (List Nat × String) :=
  match detect_miss_or_only multi move with
  | none => none
  | some special =>
    let comment0 := match special with | some s => s | none => ""
    let comment1 := if matchesBestSan then comment0 ++ "Best move. " else comment0
    let diff : ℤ := |prev_cp - curr_cp|
    some (if diff > blunderThresholdCp then ([NAG_BLUNDER], comment1 ++ "Blunder. ")
          else if diff > mistakeThresholdCp then ([NAG_MISTAKE], comment1 ++ "Mistake. ")
          else if diff > inaccuracyThresholdCp then ([NAG_DUBIOUS_MOVE], comment1 ++ "Inaccuracy. ")
          else ([], comment1))

/-- Severity categories used to compare the code's classification against the
spec's wording. -/
inductive Severity where
  | good
  | inaccuracy
  | mistake
  | blunder
deriving DecidableEq

/-- The severity encoded by the NAG list `classify_move` returns. -/
def severityOfNags (nags : List Nat) : Severity :=
  if nags = [NAG_BLUNDER] then .blunder
  else if nags = [NAG_MISTAKE] then .mistake
  else if nags = [NAG_DUBIOUS_MOVE] then .inaccuracy
  else .good

/-- Modelled from the claim's words (C1): "a drop greater than 300 yields
Blunder, a drop greater than 100 yields Mistake, a drop greater than 66 yields
Inaccuracy, and otherwise the move is Good".  Written from the spec sentence,
for comparison with the code's thresholds. -/
def claimSeverity (drop : ℤ) : Severity :=
  if drop > 300 then .blunder
  else if drop > 100 then .mistake
  else if drop > 66 then .inaccuracy
  else .good

/-- The amended threshold rule actually implemented: drop > 280 is a Blunder,
drop > 170 a Mistake, drop > 80 an Inaccuracy, anything else Good. -/
def amendedSeverity (drop : ℤ) : Severity :=
  if drop > blunderThresholdCp then .blunder
  else if drop > mistakeThresholdCp then .mistake
  else if drop > inaccuracyThresholdCp then .inaccuracy
  else .good

/-- The literal `[%eval` that opens an evaluation tag. -/
def evalTagLit : List Char := ['[', '%', 'e', 'v', 'a', 'l']

/-- One attempted match of the regex `\s*\[\%eval[^\]]*\]` at the start of `l`,
as Python `re` performs it: greedily consume whitespace, require the literal
`[%eval`, consume non-`]` characters, require `]`.  Returns the remainder after
the match, or `none` when there is no match at this position. -/
def matchEvalAt (l : List Char) : Option (List Char) :=
  let rest := l.dropWhile Py.isPySpace
  if evalTagLit.isPrefixOf rest then
    match (rest.drop 6).dropWhile (fun c => c != ']') with
    | [] => none
    | _ :: r => some r
  else none

/-- Fuelled left-to-right scan of `re.sub(r"\s*\[\%eval[^\]]*\]", "", comment)`:
at each position try a match; on success continue after the matched text, on
failure keep one character and move on.  Any fuel at least the length of the
list yields the full scan (each step consumes at least one character). -/
def subEvalF : Nat → List Char → List Char
  | 0, l => l
  | _ + 1, [] => []
  | fuel + 1, c :: rest =>
    match matchEvalAt (c :: rest) with
    | some r => subEvalF fuel r
    | none => c :: subEvalF fuel rest

/-- The complete substitution pass `re.sub(r"\s*\[\%eval[^\]]*\]", "", l)`. -/
def subEval (l : List Char) : List Char := subEvalF l.length l

/-- `strip_eval` of `analyse_games.py` (lines 132-139): remove all `[%eval ...]`
tags (single `re.sub` pass) and strip surrounding whitespace; the empty string
short-circuits. -/
def strip_eval (comment : List Char) : List Char :=
  if comment = [] then [] else Py.pyStrip (subEval comment)

/-- Decimal rendering of a move number, Python `f"{mvnum}"`. -/
def natLit (n : Nat) : List Char := (toString n).toList

/-- Python `" ".join(parts)`. -/
def joinSpace : List (List Char) → List Char
  | [] => []
  | [p] => p
  | p :: q :: rest => p ++ ' ' :: joinSpace (q :: rest)

/-- The `while idx < len(sans)` loop of `format_variation_text` (lines 120-128):
each iteration first increments the move number, then emits either a pair of
SANs or a final single SAN under that number. -/
def variation_pairs (mvnum : Nat) : List (List Char) → List (List Char)
  | [] => []
  | [s] => [natLit (mvnum + 1) ++ '.' :: ' ' :: s]
  | s1 :: s2 :: rest =>
    (natLit (mvnum + 1) ++ '.' :: ' ' :: (s1 ++ ' ' :: s2)) :: variation_pairs (mvnum + 1) rest

/-- `format_variation_text` of `analyse_games.py` (lines 100-129).  The board
argument is used only through its side to move and fullmove number, which are
passed directly.  Returns `none` exactly when `sans` is empty, modelling the
`IndexError` the source raises on `sans[0]` in that case. -/
def format_variation_text (sans : List (List Char)) (turnWhite : Bool) (fullmove : Nat) :
    Option (List Char) :=
  match sans with
  | [] => none
  | s0 :: rest =>
    if turnWhite then
      match rest with
      | s1 :: rest2 =>
        some (joinSpace ((natLit fullmove ++ '.' :: ' ' :: (s0 ++ ' ' :: s1)) ::
          variation_pairs fullmove rest2))
      | [] => some (joinSpace [natLit fullmove ++ '.' :: ' ' :: s0])
    else
      some (joinSpace ((natLit fullmove ++ '.' :: '.' :: '.' :: ' ' :: s0) ::
        variation_pairs fullmove rest))

/-- The literal `"Best move"` tested by `"Best move" in label`. -/
def bestMoveLit : List Char := "Best move".toList

/-- The text `[%eval <curr>]` (no leading space). -/
def tagCore (curr_eval : List Char) : List Char :=
  evalTagLit ++ ' ' :: (curr_eval ++ [']'])

/-- `build_comment` of `analyse_games.py` (lines 142-157): strip old evaluation
tags from the existing comment, then append the fresh annotation.  With a label
and best-line SANs present, a `Best move` label keeps only label and tag, and
any other label additionally embeds the eval transition, the best first move
and the rendered principal variation; otherwise only the eval tag is appended.
The final `.strip()` is `Py.pyStrip`. -/
def build_comment (existing prev_eval curr_eval label : List Char)
    (best_sans : List (List Char)) (turnWhite : Bool) (fullmove : Nat) : List Char :=
  let existing1 := strip_eval existing
  let comment :=
    match label, best_sans with
    | _ :: _, s0 :: _ =>
      if Py.hasSubstr bestMoveLit label then
        existing1 ++ ' ' :: (label ++ tagCore curr_eval)
      else
        existing1 ++ ' ' :: '(' :: (prev_eval ++ ' ' :: '-' :: '>' :: ' ' :: (curr_eval ++
          ')' :: ' ' :: (label ++ s0 ++ " was best. ".toList ++ tagCore curr_eval ++
          ' ' :: '(' :: (((format_variation_text best_sans turnWhite fullmove).getD []) ++ [')']))))
    | _, _ => existing1 ++ ' ' :: tagCore curr_eval
  Py.pyStrip comment

/-- The harvesting side effect of `analyse_pgn` (lines 200-204): when the move
was flagged a blunder and the mover is on the tracked identity allowlist, append
the pre-move FEN with the default difficulty 300.0 to the positions table
(`df_positions.loc[len(df_positions)] = [fen, 300.0]` appends a new row
unconditionally). -/
def harvest_blunder (df : List Pool.PosRow) (nags : List Nat)
    (white_player black_player : String) (turnWhite : Bool) (fen : String) : List Pool.PosRow :=
  if NAG_BLUNDER ∈ nags then
    let mover := if turnWhite then white_player else black_player
    if mover = "saintidle" ∨ mover = "John" then df ++ [⟨fen, 300⟩] else df
  else df

end AnalyseGames

namespace Ui

/-- A UCI move as built by the click handlers: source square, target square,
optional promotion piece type. -/
structure UciMove where
  fromSq : Nat
  toSq : Nat
  promotion : Option Nat
deriving DecidableEq

/-- The board state the click handlers consult: which squares hold a piece
(`board.piece_at`), and the legal moves (`board.legal_moves`).  Chess rules
themselves are external; the handlers only test membership. -/
structure BoardState where
  occupied : List Nat
  legal : List UciMove
deriving DecidableEq

/-- The mutable state a click handler touches: the board, the selected square,
the highlighted squares and the text log. -/
structure ClickState where
  board : BoardState
  selected : Option Nat
  highlights : List Nat
  log : List String
deriving DecidableEq

/-- python-chess `chess.square(file, rank)`. -/
def square (file rank : Nat) : Nat := 8 * rank + file

/-- Pixel-to-square mapping shared by both click handlers:
`c, r = event.x // 60, event.y // 60` then
`chess.square(7 - c, r) if flip_board else chess.square(c, 7 - r)`. -/
def clickSquare (flip_board : Bool) (x y : Nat) : Nat :=
  let c := x / 60
  let r := y / 60
  if flip_board then square (7 - c) r else square c (7 - r)

end Ui

namespace ChessModel

/-- `INACCURACY_THRESHOLD` of `no_more_bad_chess_moves.py`, in pawn units. -/
def INACCURACY_THRESHOLD : ℚ := -8/10

/-- `MISTAKE_THRESHOLD` of `no_more_bad_chess_moves.py`, in pawn units. -/
def MISTAKE_THRESHOLD : ℚ := -17/10

/-- `BLUNDER_THRESHOLD` of `no_more_bad_chess_moves.py`, in pawn units. -/
def BLUNDER_THRESHOLD : ℚ := -28/10

/-- `DEFAULT_TIME_TO_COMPLETE` of `no_more_bad_chess_moves.py`. -/
def DEFAULT_TIME_TO_COMPLETE : ℚ := 300

/-- The string returned for a good move (source line 147). -/
def goodLabel : String := "Good ✅ ✅ ✅ ✅ ✅ ✅ ✅ ✅ ✅"

/-- The string returned for an inaccuracy (source line 149). -/
def inaccuracyLabel : String := "Inaccuracy 🟦 🟦 🟦 🟦 🟦 🟦 🟦 🟦 🟦"

/-- The string returned for a mistake (source line 151). -/
def mistakeLabel : String := "Mistake ⚠️ ⚠️ ⚠️ ⚠️ ⚠️ ⚠️ ⚠️ ⚠️ ⚠️"

/-- The string returned for a blunder (source line 152). -/
def blunderLabel : String := "Blunder 🛑 🛑 🛑 🛑 🛑 🛑 🛑 🛑 🛑"

/-- `ChessModel.classify_move` of `no_more_bad_chess_moves.py` (lines 143-152):
mirror the evaluation difference for the second player, then walk the
threshold ladder with `>=` comparisons. -/
def classify_move (is_white_to_move : Bool) (diff : ℚ) : String :=
  let val := if is_white_to_move then diff else -diff
  if val ≥ INACCURACY_THRESHOLD then goodLabel
  else if val ≥ MISTAKE_THRESHOLD then inaccuracyLabel
  else if val ≥ BLUNDER_THRESHOLD then mistakeLabel
  else blunderLabel

/-- Map a severity category to the label string `classify_move` uses for it. -/
def labelOfSeverity : AnalyseGames.Severity → String
  | .good => goodLabel
  | .inaccuracy => inaccuracyLabel
  | .mistake => mistakeLabel
  | .blunder => blunderLabel

/-- The amended threshold rule of claim C1 expressed in this module's pawn
units, applied to the mover-relative drop `-val`: a drop of more than 2.8 pawns
(280 cp) is a Blunder, more than 1.7 pawns a Mistake, more than 0.8 pawns an
Inaccuracy, else Good. -/
def amendedSeverityPawns (drop : ℚ) : AnalyseGames.Severity :=
  if drop > 28/10 then .blunder
  else if drop > 17/10 then .mistake
  else if drop > 8/10 then .inaccuracy
  else .good

/-- Insertion step of the model's sort of the positions table. -/
def insertByTtc (r : Pool.PosRow) : List Pool.PosRow → List Pool.PosRow
  | [] => [r]
  | x :: xs =>
    if r.time_to_complete ≤ x.time_to_complete then r :: x :: xs
    else x :: insertByTtc r xs

/-- `ChessModel.save_positions` (lines 46-48): persist the table sorted
ascending by `time_to_complete`.  The sorting algorithm pandas uses is an
implementation detail (its default is not even stable); an insertion sort - a
permutation, ascending by the key - models it. -/
def save_positions : List Pool.PosRow → List Pool.PosRow
  | [] => []
  | x :: xs => insertByTtc x (save_positions xs)

/-- `ChessModel.record_result` (lines 134-141).  `elapsed` is the value of
`time.time() - self._timer_start`, an external reading passed in explicitly.
Every row whose stripped position string equals the stripped `fen` gets
`time_to_complete` set to `elapsed` on success and to `DEFAULT_TIME_TO_COMPLETE`
on failure; the table is then persisted sorted.  Returns the updated table and
the `ttc` value the source returns. -/
def record_result (df : List Pool.PosRow) (fen : String) (correct : Bool) (elapsed : ℚ) :
    List Pool.PosRow × ℚ :=
  let ttc := if correct then elapsed else DEFAULT_TIME_TO_COMPLETE
  let updated := df.map fun row =>
    if Py.pyStripStr row.position = Py.pyStripStr fen then
      { row with time_to_complete := ttc }
    else row
  (save_positions updated, ttc)

/-- python-chess `chess.QUEEN`. -/
def QUEEN : Nat := 5

/-- The notice `ChessController.on_click` logs for an illegal move (line 296). -/
def illegalMsg : String := "Illegal move!!! Try again..."

/-- `ChessController._get_promote_friendly_move` (lines 270-276): try the move
with a queen promotion first, fall back to no promotion if that is not legal. -/
def get_promote_friendly_move (b : Ui.BoardState) (from_square to_square : Nat) : Ui.UciMove :=
  let mv : Ui.UciMove := ⟨from_square, to_square, some QUEEN⟩
  if mv ∈ b.legal then mv else ⟨from_square, to_square, none⟩

/-- `ChessController.on_click` of `no_more_bad_chess_moves.py` (lines 278-298).
`process_move` is the `_process_move` continuation (it consults the engine, so
it is an explicit parameter; the illegal branch never invokes it).  First click
selects an occupied square; second click builds the promote-friendly move,
re-highlights, then either processes a legal move or logs the illegal-move
notice, clearing the selection either way.  Rendering (`draw_board`) is
external. -/
def on_click (process_move : Ui.ClickState → Ui.UciMove → Ui.ClickState)
    (flip_board : Bool) (st : Ui.ClickState) (x y : Nat) : Ui.ClickState :=
  let sq := Ui.clickSquare flip_board x y
  match st.selected with
  | none =>
    if sq ∈ st.board.occupied then
      { st with selected := some sq, highlights := [sq] }
    else st
  | some sel =>
    let mv := get_promote_friendly_move st.board sel sq
    let st1 := { st with highlights := [sel, sq] }
    if mv ∈ st1.board.legal then
      { process_move st1 mv with selected := none }
    else
      { st1 with log := st1.log ++ [illegalMsg], selected := none }

end ChessModel

namespace MyChess

/-- The transfer curve of `draw_eval_bar` in `mychess.py` (lines 121-141):
`n = math.atan(val / C) / (math.pi / 2)` with `C = 2.0`, normalising the
pawn-unit evaluation to `(-1, 1)`. -/
noncomputable def transfer_curve (val : ℝ) : ℝ := Real.arctan (val / 2) / (Real.pi / 2)

/-- The boundary height `y = (1 - n) / 2 * h` of the evaluation bar, with
`h = 480` and the board not flipped (flipping mirrors the bar and swaps the
colours, leaving the white share unchanged). -/
noncomputable def draw_eval_bar_y (val : ℝ) : ℝ := (1 - transfer_curve val) / 2 * 480

/-- The white-area fraction of the evaluation bar as a function of the
centipawn score: the bar is fed `score.white().score(mate_score=10000) / 100`,
so a centipawn score `cp` enters as `val = cp / 100`, and the white rectangle
spans from `y` to `h = 480`.  This is the probability-like monotone transform
the repository applies to a signed score. -/
noncomputable def winProbability (cp : ℝ) : ℝ := (480 - draw_eval_bar_y (cp / 100)) / 480

/-- `on_board_click` of `mychess.py` (lines 178-194).  Identical click protocol
to `ChessController.on_click`, except that the proposed move carries no
promotion and - notably - the illegal branch does nothing beyond clearing the
selection: no notice is logged. -/
def on_board_click (process_move : Ui.ClickState → Ui.UciMove → Ui.ClickState)
    (flip_board : Bool) (st : Ui.ClickState) (x y : Nat) : Ui.ClickState :=
  let sq := Ui.clickSquare flip_board x y
  match st.selected with
  | none =>
    if sq ∈ st.board.occupied then
      { st with selected := some sq, highlights := [sq] }
    else st
  | some sel =>
    let mv : Ui.UciMove := ⟨sel, sq, none⟩
    let st1 := { st with highlights := [sel, sq] }
    if mv ∈ st1.board.legal then
      { process_move st1 mv with selected := none }
    else
      { st1 with selected := none }

end MyChess

namespace ChessModel

theorem insertByTtc_perm (r : Pool.PosRow) (l : List Pool.PosRow) :
    (insertByTtc r l).Perm (r :: l) := by
  induction l with
  | nil => exact List.Perm.refl _
  | cons x xs ih =>
    simp only [insertByTtc]
    split
    · exact List.Perm.refl _
    · exact (ih.cons x).trans (List.Perm.swap r x xs)

theorem save_positions_perm (l : List Pool.PosRow) : (save_positions l).Perm l := by
  induction l with
  | nil => exact List.Perm.refl _
  | cons x xs ih => exact (insertByTtc_perm x (save_positions xs)).trans (ih.cons x)

theorem record_result_fst (df : List Pool.PosRow) (fen : String) (correct : Bool) (elapsed : ℚ) :
    (record_result df fen correct elapsed).1 =
      save_positions (df.map fun row =>
        if Py.pyStripStr row.position = Py.pyStripStr fen then
          { row with time_to_complete := if correct then elapsed else DEFAULT_TIME_TO_COMPLETE }
        else row) := rfl

end ChessModel

/-- C2: after `record_result` with `correct = false`, every pool row matching
the recorded position carries the fixed default difficulty regardless of the
elapsed time; with `correct = true` it carries exactly the measured elapsed
time.  The second component is the `ttc` value the method returns. -/
theorem C2_record_result_outcome (df : List Pool.PosRow) (fen : String) (correct : Bool)
    (elapsed : ℚ) (row : Pool.PosRow)
    (hmem : row ∈ (ChessModel.record_result df fen correct elapsed).1)
    (hmatch : Py.pyStripStr row.position = Py.pyStripStr fen) :
    row.time_to_complete =
      (if correct then elapsed else ChessModel.DEFAULT_TIME_TO_COMPLETE) ∧
    (ChessModel.record_result df fen correct elapsed).2 =
      (if correct then elapsed else ChessModel.DEFAULT_TIME_TO_COMPLETE) := by
  refine ⟨?_, rfl⟩
  rw [ChessModel.record_result_fst] at hmem
  have hmem2 := (ChessModel.save_positions_perm _).mem_iff.mp hmem
  rw [List.mem_map] at hmem2
  obtain ⟨orig, -, heq⟩ := hmem2
  by_cases h : Py.pyStripStr orig.position = Py.pyStripStr fen
  · rw [if_pos h] at heq
    rw [← heq]
  · rw [if_neg h] at heq
    rw [← heq] at hmatch
    exact absurd hmatch h

theorem C2_witness :
    (⟨"fen1", (300 : ℚ)⟩ : Pool.PosRow).time_to_complete =
      (if false then (5 : ℚ) else ChessModel.DEFAULT_TIME_TO_COMPLETE) ∧
    (ChessModel.record_result [⟨"fen1", 10⟩, ⟨"fen2", 20⟩] "fen1" false 5).2 =
      (if false then (5 : ℚ) else ChessModel.DEFAULT_TIME_TO_COMPLETE) :=
  C2_record_result_outcome [⟨"fen1", 10⟩, ⟨"fen2", 20⟩] "fen1" false 5
    ⟨"fen1", 300⟩ (by decide) (by decide)

theorem record_result_map_filter (df : List Pool.PosRow) (fen : String) (t : ℚ) :
    (df.map fun row =>
        if Py.pyStripStr row.position = Py.pyStripStr fen then
          { row with time_to_complete := t }
        else row).filter
      (fun r => Py.pyStripStr r.position != Py.pyStripStr fen) =
    df.filter (fun r => Py.pyStripStr r.position != Py.pyStripStr fen) := by
  induction df with
  | nil => rfl
  | cons r rest ih =>
    by_cases h : Py.pyStripStr r.position = Py.pyStripStr fen
    · simp only [List.map_cons, if_pos h, List.filter_cons]
      have h1 : (Py.pyStripStr ({ r with time_to_complete := t } : Pool.PosRow).position !=
          Py.pyStripStr fen) = false := by simp [h]
      rw [h1]
      simpa using ih
    · simp only [List.map_cons, if_neg h, List.filter_cons]
      have h2 : (Py.pyStripStr r.position != Py.pyStripStr fen) = true := by simp [h]
      rw [h2]
      simpa using ih

/-- C10: `record_result` is a frame over the rows not keyed by the recorded
position: the rows whose stripped position string differs from the stripped
`fen` appear in the resulting table exactly as before, values included, up to
the reordering done by the sorted persist. -/
theorem C10_record_result_frame (df : List Pool.PosRow) (fen : String) (correct : Bool)
    (elapsed : ℚ) :
    ((ChessModel.record_result df fen correct elapsed).1.filter
        (fun r => Py.pyStripStr r.position != Py.pyStripStr fen)).Perm
      (df.filter (fun r => Py.pyStripStr r.position != Py.pyStripStr fen)) := by
  rw [ChessModel.record_result_fst]
  have h1 := (ChessModel.save_positions_perm (df.map fun row =>
    if Py.pyStripStr row.position = Py.pyStripStr fen then
      { row with time_to_complete :=
        if correct then elapsed else ChessModel.DEFAULT_TIME_TO_COMPLETE }
    else row)).filter (fun r => Py.pyStripStr r.position != Py.pyStripStr fen)
  rw [record_result_map_filter] at h1
  exact h1

/-- C7 fails on the code: harvesting appends a row unconditionally, so a pool
that satisfies the uniqueness invariant and already contains the harvested
position string ends up with two rows for it.  Concrete input: pool
`[("F", 300)]`, a blunder NAG, mover `"John"`, harvested FEN `"F"`. -/
theorem C7_counterexample :
    Pool.uniquePositions [⟨"F", 300⟩] ∧
      ¬ Pool.uniquePositions
        (AnalyseGames.harvest_blunder [⟨"F", 300⟩] [AnalyseGames.NAG_BLUNDER]
          "John" "X" true "F") := by
  decide

/-- C7 amended: the update operation `record_result` does preserve the
at-most-one-row-per-position invariant (it rewrites values of matching rows
and adds no rows), but the harvesting append of `analyse_pgn` does not check
for an existing row, so pool uniqueness is not preserved by every operation
(see the counterexample). -/
theorem C7_amended_record_result_uniqueness (df : List Pool.PosRow) (fen : String)
    (correct : Bool) (elapsed : ℚ) (h : Pool.uniquePositions df) :
    Pool.uniquePositions (ChessModel.record_result df fen correct elapsed).1 := by
  rw [ChessModel.record_result_fst]
  unfold Pool.uniquePositions at h ⊢
  have hperm := (ChessModel.save_positions_perm (df.map fun row =>
    if Py.pyStripStr row.position = Py.pyStripStr fen then
      { row with time_to_complete :=
        if correct then elapsed else ChessModel.DEFAULT_TIME_TO_COMPLETE }
    else row)).map Pool.PosRow.position
  rw [hperm.nodup_iff]
  rw [List.map_map]
  have hmaps : (df.map (Pool.PosRow.position ∘ fun row =>
      if Py.pyStripStr row.position = Py.pyStripStr fen then
        { row with time_to_complete :=
          if correct then elapsed else ChessModel.DEFAULT_TIME_TO_COMPLETE }
      else row)) = df.map Pool.PosRow.position := by
    apply List.map_congr_left
    intro a _
    by_cases hm : Py.pyStripStr a.position = Py.pyStripStr fen
    · simp [hm]
    · simp [hm]
  rw [hmaps]
  exact h

theorem C7_witness :
    Pool.uniquePositions (ChessModel.record_result [⟨"a", 5⟩, ⟨"b", 9⟩] "a" true 7).1 :=
  C7_amended_record_result_uniqueness [⟨"a", 5⟩, ⟨"b", 9⟩] "a" true 7 (by decide)

/-- C9: the practice-session classifier is total, always returning exactly one
of the four labels, and classifying for the second player equals classifying
for the first player with the evaluation difference negated. -/
theorem C9_classify_move_total_and_mirror :
    (∀ (b : Bool) (d : ℚ),
      ChessModel.classify_move b d = ChessModel.goodLabel ∨
      ChessModel.classify_move b d = ChessModel.inaccuracyLabel ∨
      ChessModel.classify_move b d = ChessModel.mistakeLabel ∨
      ChessModel.classify_move b d = ChessModel.blunderLabel) ∧
    (∀ d : ℚ, ChessModel.classify_move false d = ChessModel.classify_move true (-d)) := by
  constructor
  · intro b d
    cases b <;> (simp only [ChessModel.classify_move]; split_ifs <;> tauto)
  · intro d
    rfl

/-- C5: mate scores saturate.  For any two mate distances on the same side the
interpreted signed score is the same fixed extreme (10000 when the mating side
is positive, -10000 when negative), and the human-readable label is the signed
mate distance prefixed by the hash sign. -/
theorem C5_mate_saturation (n1 n2 : ℤ) (h12 : n1 < n2) :
    (0 < n1 →
      (AnalyseGames.get_eval_and_score (.mate n1)).1 = 10000 ∧
      (AnalyseGames.get_eval_and_score (.mate n2)).1 = 10000) ∧
    (n2 < 0 →
      (AnalyseGames.get_eval_and_score (.mate n1)).1 = -10000 ∧
      (AnalyseGames.get_eval_and_score (.mate n2)).1 = -10000) ∧
    (AnalyseGames.get_eval_and_score (.mate n1)).2 = "#" ++ toString n1 ∧
    (AnalyseGames.get_eval_and_score (.mate n2)).2 = "#" ++ toString n2 := by
  unfold AnalyseGames.get_eval_and_score
  refine ⟨fun h => ⟨?_, ?_⟩, fun h => ⟨?_, ?_⟩, rfl, rfl⟩
  · simp only [if_pos (show n1 > 0 from h)]
  · simp only [if_pos (show n2 > 0 by omega)]
  · simp only [if_neg (show ¬ n1 > 0 by omega)]
  · simp only [if_neg (show ¬ n2 > 0 by omega)]

theorem C5_witness :
    (AnalyseGames.get_eval_and_score (.mate 3)).1 = 10000 ∧
    (AnalyseGames.get_eval_and_score (.mate 5)).1 = 10000 :=
  (C5_mate_saturation 3 5 (by decide)).1 (by decide)

/-- C3: with at least two candidates in the multipv response and a top
candidate owning a first move, the classifier emits `Only move` when the gap
between the two interpreted candidate scores exceeds the Blunder threshold
(280 centipawns, the very constant the severity ladder uses) and the played
move is the top candidate, `Miss` under the same gap when it is not, and
neither marker when the gap does not exceed the threshold. -/
theorem C3_detect_miss_or_only_gap (best second : AnalyseGames.EngineInfo)
    (rest : List AnalyseGames.EngineInfo) (move best_mv : Nat) (pvrest : List Nat)
    (hpv : best.pv = best_mv :: pvrest) :
    ((AnalyseGames.get_eval_and_score best.score).1 -
        (AnalyseGames.get_eval_and_score second.score).1 > AnalyseGames.blunderThresholdCp →
      (move = best_mv →
        AnalyseGames.detect_miss_or_only (best :: second :: rest) move =
          some (some "Only move. ")) ∧
      (move ≠ best_mv →
        AnalyseGames.detect_miss_or_only (best :: second :: rest) move =
          some (some "Miss. "))) ∧
    (¬ ((AnalyseGames.get_eval_and_score best.score).1 -
        (AnalyseGames.get_eval_and_score second.score).1 > AnalyseGames.blunderThresholdCp) →
      AnalyseGames.detect_miss_or_only (best :: second :: rest) move = some none) := by
  simp only [AnalyseGames.detect_miss_or_only, hpv]
  constructor
  · intro hgap
    constructor
    · intro he
      rw [if_pos hgap, if_pos he]
    · intro he
      rw [if_pos hgap, if_neg he]
  · intro hgap
    rw [if_neg hgap]

theorem C3_witness :
    AnalyseGames.detect_miss_or_only
      [⟨AnalyseGames.PovScore.cp 650, [7]⟩, ⟨AnalyseGames.PovScore.cp 120, []⟩] 7 =
      some (some "Only move. ") :=
  ((C3_detect_miss_or_only_gap ⟨AnalyseGames.PovScore.cp 650, [7]⟩
    ⟨AnalyseGames.PovScore.cp 120, []⟩ [] 7 7 [] rfl).1 (by decide)).1 rfl

/-- C1 fails on the code at a drop of 290 centipawns: the claim's rule (drop
greater than 300 for Blunder, greater than 100 for Mistake) classifies it a
Mistake, while both implementations classify it a Blunder (their thresholds
are 280/170/80, not 300/100/66).  Inputs: `prev_cp = 0`, `curr_cp = 290` for
the game analyser, and a mover-relative difference of -2.9 pawns for the
practice app. -/
theorem C1_counterexample :
    AnalyseGames.claimSeverity |(0 : ℤ) - 290| = AnalyseGames.Severity.mistake ∧
    AnalyseGames.classify_move 0 290 0 [] false =
      some ([AnalyseGames.NAG_BLUNDER], "Blunder. ") ∧
    AnalyseGames.Severity.mistake ≠ AnalyseGames.Severity.blunder ∧
    ChessModel.classify_move true (-(29/10 : ℚ)) = ChessModel.blunderLabel := by
  refine ⟨by decide, by decide, by decide, ?_⟩
  have h1 : ¬ (-(29/10 : ℚ) ≥ ChessModel.INACCURACY_THRESHOLD) := by
    unfold ChessModel.INACCURACY_THRESHOLD; norm_num
  have h2 : ¬ (-(29/10 : ℚ) ≥ ChessModel.MISTAKE_THRESHOLD) := by
    unfold ChessModel.MISTAKE_THRESHOLD; norm_num
  have h3 : ¬ (-(29/10 : ℚ) ≥ ChessModel.BLUNDER_THRESHOLD) := by
    unfold ChessModel.BLUNDER_THRESHOLD; norm_num
  simp only [ChessModel.classify_move, if_pos, if_neg h1, if_neg h2, if_neg h3, if_true]

/-- C1 amended: both classifiers follow the ladder `drop > 280 cp -> Blunder`,
`drop > 170 cp -> Mistake`, `drop > 80 cp -> Inaccuracy`, `else Good` - the
game analyser on the magnitude `abs(prev_cp - curr_cp)` in centipawns (whenever
it returns at all), and the practice app on the mover-relative drop in pawn
units (2.8 / 1.7 / 0.8). -/
theorem C1_amended_thresholds :
    (∀ (prev_cp curr_cp : ℤ) (move : Nat) (multi : List AnalyseGames.EngineInfo)
        (matchesBestSan : Bool) (res : List Nat × String),
      AnalyseGames.classify_move prev_cp curr_cp move multi matchesBestSan = some res →
      AnalyseGames.severityOfNags res.1 = AnalyseGames.amendedSeverity |prev_cp - curr_cp|) ∧
    (∀ (w : Bool) (d : ℚ),
      ChessModel.classify_move w d =
        ChessModel.labelOfSeverity (ChessModel.amendedSeverityPawns (if w then -d else d))) := by
  constructor
  · intro prev_cp curr_cp move multi matchesBestSan res h
    revert h
    unfold AnalyseGames.classify_move
    cases hdet : AnalyseGames.detect_miss_or_only multi move with
    | none => intro h; exact absurd h (by simp)
    | some special =>
      simp only [Option.some.injEq]
      intro h
      subst h
      unfold AnalyseGames.amendedSeverity
      split_ifs <;> simp [AnalyseGames.severityOfNags, AnalyseGames.NAG_BLUNDER,
        AnalyseGames.NAG_MISTAKE, AnalyseGames.NAG_DUBIOUS_MOVE]
  · intro w d
    cases w <;>
      (simp only [ChessModel.classify_move, ChessModel.amendedSeverityPawns,
        ChessModel.labelOfSeverity, ChessModel.INACCURACY_THRESHOLD,
        ChessModel.MISTAKE_THRESHOLD, ChessModel.BLUNDER_THRESHOLD,
        Bool.false_eq_true, if_false, if_true]
       split_ifs <;> first
        | rfl
        | (exfalso; linarith))

theorem C1_witness :
    AnalyseGames.severityOfNags ([AnalyseGames.NAG_DUBIOUS_MOVE], "Inaccuracy. ").1 =
      AnalyseGames.amendedSeverity |(0 : ℤ) - 100| :=
  C1_amended_thresholds.1 0 100 0 [] false ([AnalyseGames.NAG_DUBIOUS_MOVE], "Inaccuracy. ")
    (by decide)

/-- C8 fails on the click handler of `mychess.py`: for a click sequence
proposing an illegal move the position is indeed left unchanged, but no
notice at all is logged - the move is silently discarded.  Concrete input:
empty board, empty legal-move list, square 0 selected, click at pixel (0, 0). -/
theorem C8_counterexample :
    ((⟨0, Ui.clickSquare false 0 0, none⟩ : Ui.UciMove) ∉
        (⟨[], []⟩ : Ui.BoardState).legal) ∧
    (MyChess.on_board_click (fun s _ => s) false ⟨⟨[], []⟩, some 0, [], ["FEN"]⟩ 0 0).log =
      ["FEN"] ∧
    (MyChess.on_board_click (fun s _ => s) false ⟨⟨[], []⟩, some 0, [], ["FEN"]⟩ 0 0).board =
      ⟨[], []⟩ := by
  decide

/-- C8 amended: on a click sequence proposing an illegal move both handlers
leave the board position unchanged and never invoke the move-processing
continuation; `ChessController.on_click` additionally logs the explicit
illegal-move notice, while `mychess.on_board_click` logs nothing. -/
theorem C8_amended_illegal_click (process_move : Ui.ClickState → Ui.UciMove → Ui.ClickState)
    (flip_board : Bool) (st : Ui.ClickState) (x y : Nat) (sel : Nat)
    (hsel : st.selected = some sel)
    (hill : ChessModel.get_promote_friendly_move st.board sel (Ui.clickSquare flip_board x y) ∉
      st.board.legal) :
    ((ChessModel.on_click process_move flip_board st x y).board = st.board ∧
      (ChessModel.on_click process_move flip_board st x y).log =
        st.log ++ [ChessModel.illegalMsg]) ∧
    ((MyChess.on_board_click process_move flip_board st x y).board = st.board ∧
      (MyChess.on_board_click process_move flip_board st x y).log = st.log) := by
  have hplain : (⟨sel, Ui.clickSquare flip_board x y, none⟩ : Ui.UciMove) ∉ st.board.legal := by
    intro hmem
    apply hill
    by_cases hq : (⟨sel, Ui.clickSquare flip_board x y, some ChessModel.QUEEN⟩ : Ui.UciMove) ∈
        st.board.legal
    · simp [ChessModel.get_promote_friendly_move, hq]
    · simpa [ChessModel.get_promote_friendly_move, hq] using hmem
  constructor
  · unfold ChessModel.on_click
    rw [hsel]
    simp only [if_neg hill]
    refine ⟨?_, ?_⟩ <;> trivial
  · unfold MyChess.on_board_click
    rw [hsel]
    simp only [if_neg hplain]
    refine ⟨?_, ?_⟩ <;> trivial

theorem C8_witness :
    ((ChessModel.on_click (fun s _ => s) false ⟨⟨[], []⟩, some 0, [], ["FEN"]⟩ 0 0).board =
        (⟨⟨[], []⟩, some 0, [], ["FEN"]⟩ : Ui.ClickState).board ∧
      (ChessModel.on_click (fun s _ => s) false ⟨⟨[], []⟩, some 0, [], ["FEN"]⟩ 0 0).log =
        (⟨⟨[], []⟩, some 0, [], ["FEN"]⟩ : Ui.ClickState).log ++ [ChessModel.illegalMsg]) ∧
    ((MyChess.on_board_click (fun s _ => s) false ⟨⟨[], []⟩, some 0, [], ["FEN"]⟩ 0 0).board =
        (⟨⟨[], []⟩, some 0, [], ["FEN"]⟩ : Ui.ClickState).board ∧
      (MyChess.on_board_click (fun s _ => s) false ⟨⟨[], []⟩, some 0, [], ["FEN"]⟩ 0 0).log =
        (⟨⟨[], []⟩, some 0, [], ["FEN"]⟩ : Ui.ClickState).log) :=
  C8_amended_illegal_click (fun s _ => s) false ⟨⟨[], []⟩, some 0, [], ["FEN"]⟩ 0 0 0 rfl
    (by decide)

namespace MyChess

theorem winProbability_eq (cp : ℝ) :
    winProbability cp = (1 + Real.arctan (cp / 200) / (Real.pi / 2)) / 2 := by
  unfold winProbability draw_eval_bar_y transfer_curve
  have h : cp / 100 / 2 = cp / 200 := by ring
  rw [h]
  ring

theorem transfer_ratio_bounds (x : ℝ) :
    -1 < Real.arctan x / (Real.pi / 2) ∧ Real.arctan x / (Real.pi / 2) < 1 := by
  have hpi : 0 < Real.pi / 2 := by positivity
  constructor
  · rw [lt_div_iff₀ hpi]
    have := Real.neg_pi_div_two_lt_arctan x
    linarith
  · rw [div_lt_one hpi]
    exact Real.arctan_lt_pi_div_two x

end MyChess

/-- C6 amended: the score transform the code actually applies - the white-area
fraction of `draw_eval_bar` as a function of the centipawn score, namely
`(1 + atan(cp/200) / (pi/2)) / 2` - lies strictly between 0 and 1, satisfies
`p(cp) + p(-cp) = 1`, and is strictly increasing; but it is an arctangent
curve, not the logistic `1 / (1 + exp(-cp/K))` (see the counterexample). -/
theorem C6_amended_eval_bar_curve :
    (∀ cp : ℝ, 0 < MyChess.winProbability cp ∧ MyChess.winProbability cp < 1 ∧
      MyChess.winProbability cp + MyChess.winProbability (-cp) = 1) ∧
    StrictMono MyChess.winProbability := by
  constructor
  · intro cp
    obtain ⟨hlo, hhi⟩ := MyChess.transfer_ratio_bounds (cp / 200)
    refine ⟨?_, ?_, ?_⟩
    · rw [MyChess.winProbability_eq]; linarith
    · rw [MyChess.winProbability_eq]; linarith
    · rw [MyChess.winProbability_eq, MyChess.winProbability_eq]
      have hneg : (-cp) / 200 = -(cp / 200) := by ring
      rw [hneg, Real.arctan_neg]
      ring
  · intro a b hab
    rw [MyChess.winProbability_eq, MyChess.winProbability_eq]
    have hpi : 0 < Real.pi / 2 := by positivity
    have harc : Real.arctan (a / 200) < Real.arctan (b / 200) :=
      Real.arctan_strictMono (by linarith)
    have hdiv : Real.arctan (a / 200) / (Real.pi / 2) <
        Real.arctan (b / 200) / (Real.pi / 2) :=
      (div_lt_div_iff_of_pos_right hpi).mpr harc
    linarith

/-- C6's logistic form fails on the code: no scale constant `K` makes the
eval-bar transform a logistic curve.  At `cp = 200` the transform equals
exactly 3/4 and at `cp = 200 * sqrt 3` exactly 5/6; a logistic curve through
the first point forces `200 / K = log 3`, through the second
`200 * sqrt 3 / K = log 5`, hence `sqrt 3 * log 3 = log 5`, which is false
(`sqrt 3 * log 3 > 1.7` while `log 5 < 1.7`). -/
theorem C6_counterexample :
    ¬ ∃ K : ℝ, 0 < K ∧
      ∀ cp : ℝ, MyChess.winProbability cp = 1 / (1 + Real.exp (-cp / K)) := by
  rintro ⟨K, hK, h⟩
  have h200 : MyChess.winProbability 200 = 3 / 4 := by
    rw [MyChess.winProbability_eq]
    have h1 : (200 : ℝ) / 200 = 1 := by norm_num
    rw [h1, Real.arctan_one]
    have hpi := Real.pi_ne_zero
    field_simp
    ring
  have harc3 : Real.arctan (Real.sqrt 3) = Real.pi / 3 := by
    have h1 : Real.tan (Real.pi / 3) = Real.sqrt 3 := by
      rw [Real.tan_eq_sin_div_cos, Real.sin_pi_div_three, Real.cos_pi_div_three]
      field_simp
    rw [← h1, Real.arctan_tan]
    · linarith [Real.pi_pos]
    · linarith [Real.pi_pos]
  have hs3 : MyChess.winProbability (200 * Real.sqrt 3) = 5 / 6 := by
    rw [MyChess.winProbability_eq]
    have h1 : 200 * Real.sqrt 3 / 200 = Real.sqrt 3 := by ring
    rw [h1, harc3]
    have hpi := Real.pi_ne_zero
    field_simp
    ring
  have e200 : Real.exp (-(200 / K)) = 1 / 3 := by
    have h1 := h 200
    rw [h200, neg_div] at h1
    have hx : (0 : ℝ) < 1 + Real.exp (-(200 / K)) := by positivity
    have hx' : (1 + Real.exp (-(200 / K))) ≠ 0 := ne_of_gt hx
    field_simp [hx'] at h1
    rw [neg_div] at h1
    linarith
  have es3 : Real.exp (-(200 * Real.sqrt 3 / K)) = 1 / 5 := by
    have h1 := h (200 * Real.sqrt 3)
    rw [hs3, neg_div] at h1
    have hx : (0 : ℝ) < 1 + Real.exp (-(200 * Real.sqrt 3 / K)) := by positivity
    have hx' : (1 + Real.exp (-(200 * Real.sqrt 3 / K))) ≠ 0 := ne_of_gt hx
    field_simp [hx'] at h1
    rw [neg_div] at h1
    linarith
  have hl200 : 200 / K = Real.log 3 := by
    have h2 := congrArg Real.log e200
    rw [Real.log_exp] at h2
    rw [show ((1 : ℝ) / 3) = ((3 : ℝ))⁻¹ by norm_num, Real.log_inv] at h2
    linarith
  have hls3 : 200 * Real.sqrt 3 / K = Real.log 5 := by
    have h2 := congrArg Real.log es3
    rw [Real.log_exp] at h2
    rw [show ((1 : ℝ) / 5) = ((5 : ℝ))⁻¹ by norm_num, Real.log_inv] at h2
    linarith
  have key : Real.sqrt 3 * Real.log 3 = Real.log 5 := by
    rw [← hl200, ← hls3]
    ring
  have hlog3 : 1 < Real.log 3 := by
    rw [Real.lt_log_iff_exp_lt (by norm_num : (0 : ℝ) < 3)]
    calc Real.exp 1 < 2.7182818286 := Real.exp_one_lt_d9
    _ < 3 := by norm_num
  have hsqrt3 : (1.7 : ℝ) < Real.sqrt 3 := by
    nlinarith [Real.sq_sqrt (by norm_num : (0 : ℝ) ≤ 3), Real.sqrt_nonneg 3]
  have hlog5 : Real.log 5 < 1.7 := by
    rw [Real.log_lt_iff_lt_exp (by norm_num : (0 : ℝ) < 5)]
    have h17 : Real.exp (1.7 : ℝ) = Real.exp 1 * Real.exp 0.7 := by
      rw [← Real.exp_add]
      norm_num
    have h07 : Real.exp (0.7 : ℝ) = Real.exp 0.175 ^ 4 := by
      rw [← Real.exp_nat_mul]
      norm_num
    have hb : (1.175 : ℝ) ≤ Real.exp 0.175 := by
      have := Real.add_one_le_exp (0.175 : ℝ)
      linarith
    have hb4 : (1.175 : ℝ) ^ 4 ≤ Real.exp 0.175 ^ 4 :=
      pow_le_pow_left₀ (by norm_num) hb 4
    have he1 := Real.exp_one_gt_d9
    rw [h17, h07]
    nlinarith [Real.exp_pos (0.175 : ℝ)]
  have hfin : (1.7 : ℝ) < Real.sqrt 3 * Real.log 3 := by
    nlinarith
  linarith

namespace Py

theorem headOk_append {a b : List Char} (h : a ≠ []) : headOk (a ++ b) = headOk a := by
  cases a with
  | nil => exact absurd rfl h
  | cons c r => rfl

theorem lastOk_append {a b : List Char} (h : b ≠ []) : lastOk (a ++ b) = lastOk b := by
  unfold lastOk
  rw [List.reverse_append]
  exact headOk_append (by simpa using h)

theorem headOk_dropWhile (l : List Char) : headOk (l.dropWhile isPySpace) = true := by
  induction l with
  | nil => rfl
  | cons c r ih =>
    by_cases hc : isPySpace c
    · rw [List.dropWhile_cons_of_pos (by simpa using hc)]
      exact ih
    · rw [List.dropWhile_cons_of_neg (by simpa using hc)]
      simp [headOk, hc]

theorem dropWhile_of_headOk {l : List Char} (h : headOk l = true) :
    l.dropWhile isPySpace = l := by
  cases l with
  | nil => rfl
  | cons c r =>
    have hc : isPySpace c = false := by
      by_contra hcon
      simp [headOk] at h
      simp [h] at hcon
    rw [List.dropWhile_cons_of_neg (by simp [hc])]

theorem stripRight_append_eq (l : List Char) : ∃ t, stripRight l ++ t = l := by
  obtain ⟨u, hu⟩ := (List.dropWhile_suffix (l := l.reverse) isPySpace)
  refine ⟨u.reverse, ?_⟩
  show (l.reverse.dropWhile isPySpace).reverse ++ u.reverse = l
  rw [← List.reverse_append, hu, List.reverse_reverse]

theorem headOk_stripRight {l : List Char} (h : headOk l = true) :
    headOk (stripRight l) = true := by
  obtain ⟨t, ht⟩ := stripRight_append_eq l
  cases hsr : stripRight l with
  | nil => rfl
  | cons c r =>
    rw [hsr] at ht
    rw [← ht] at h
    rw [headOk_append (by simp)] at h
    exact h

theorem lastOk_stripRight (l : List Char) : lastOk (stripRight l) = true := by
  unfold lastOk stripRight
  rw [List.reverse_reverse]
  exact headOk_dropWhile l.reverse

theorem stripRight_of_lastOk {l : List Char} (h : lastOk l = true) : stripRight l = l := by
  unfold stripRight
  rw [dropWhile_of_headOk h, List.reverse_reverse]

theorem headOk_pyStrip (l : List Char) : headOk (pyStrip l) = true :=
  headOk_stripRight (headOk_dropWhile l)

theorem lastOk_pyStrip (l : List Char) : lastOk (pyStrip l) = true :=
  lastOk_stripRight (stripLeft l)

theorem pyStrip_of_ok {l : List Char} (h1 : headOk l = true) (h2 : lastOk l = true) :
    pyStrip l = l := by
  unfold pyStrip stripLeft
  rw [dropWhile_of_headOk h1, stripRight_of_lastOk h2]

theorem pyStrip_idem (l : List Char) : pyStrip (pyStrip l) = pyStrip l :=
  pyStrip_of_ok (headOk_pyStrip l) (lastOk_pyStrip l)

theorem hasSubstr_iff (pat l : List Char) :
    hasSubstr pat l = true ↔ ∃ s t, l = s ++ pat ++ t := by
  induction l with
  | nil =>
    simp only [hasSubstr, List.isEmpty_iff]
    constructor
    · intro h
      exact ⟨[], [], by simp [h]⟩
    · rintro ⟨s, t, h⟩
      rcases List.append_eq_nil.mp (List.append_eq_nil.mp h.symm).1 with ⟨-, h2⟩
      exact h2
  | cons c rest ih =>
    simp only [hasSubstr, Bool.or_eq_true]
    constructor
    · rintro (h | h)
      · obtain ⟨t, ht⟩ := List.isPrefixOf_iff_prefix.mp h
        exact ⟨[], t, by simp [← ht]⟩
      · obtain ⟨s, t, hst⟩ := ih.mp h
        exact ⟨c :: s, t, by simp [hst]⟩
    · rintro ⟨s, t, hst⟩
      cases s with
      | nil =>
        left
        exact List.isPrefixOf_iff_prefix.mpr ⟨t, by simpa using hst.symm⟩
      | cons a s' =>
        right
        rw [List.cons_append, List.cons_append] at hst
        injection hst with h1 h2
        exact ih.mpr ⟨s', t, h2⟩

theorem hasSubstr_false_left {pat m t : List Char} (h : hasSubstr pat (m ++ t) = false) :
    hasSubstr pat m = false := by
  by_contra hcon
  obtain ⟨s, u, hsu⟩ := (hasSubstr_iff pat m).mp (by simpa using hcon)
  have : hasSubstr pat (m ++ t) = true :=
    (hasSubstr_iff pat (m ++ t)).mpr ⟨s, u ++ t, by simp [hsu]⟩
  rw [this] at h
  exact absurd h (by simp)

theorem hasSubstr_false_right {pat u m : List Char} (h : hasSubstr pat (u ++ m) = false) :
    hasSubstr pat m = false := by
  by_contra hcon
  obtain ⟨s, t, hst⟩ := (hasSubstr_iff pat m).mp (by simpa using hcon)
  have : hasSubstr pat (u ++ m) = true :=
    (hasSubstr_iff pat (u ++ m)).mpr ⟨u ++ s, t, by simp [hst]⟩
  rw [this] at h
  exact absurd h (by simp)

theorem hasSubstr_pyStrip_false {pat l : List Char} (h : hasSubstr pat l = false) :
    hasSubstr pat (pyStrip l) = false := by
  obtain ⟨u, hu⟩ := (List.dropWhile_suffix (l := l) isPySpace)
  obtain ⟨t, ht⟩ := stripRight_append_eq (stripLeft l)
  have h1 : hasSubstr pat (stripLeft l) = false := by
    apply hasSubstr_false_right (u := u)
    rw [show u ++ stripLeft l = l from hu]
    exact h
  apply hasSubstr_false_left (t := t)
  rw [show pyStrip l ++ t = stripLeft l from ht]
  exact h1

end Py

namespace AnalyseGames

theorem tagCore_assoc (c : List Char) :
    tagCore c = (evalTagLit ++ ' ' :: c) ++ [']'] := by
  unfold tagCore
  simp

theorem headOk_tagCore (c : List Char) : Py.headOk (tagCore c) = true := rfl

theorem lastOk_tagCore (c : List Char) : Py.lastOk (tagCore c) = true := by
  rw [tagCore_assoc, Py.lastOk_append (by simp)]
  rfl

theorem dropWhile_to_bracket {xs ys : List Char} (h : ∀ a ∈ xs, a ≠ ']') :
    (xs ++ ']' :: ys).dropWhile (fun c => c != ']') = ']' :: ys := by
  induction xs with
  | nil =>
    rw [List.nil_append, List.dropWhile_cons_of_neg (by simp)]
  | cons a xs ih =>
    rw [List.cons_append, List.dropWhile_cons_of_pos (by simpa using h a (by simp))]
    exact ih (fun b hb => h b (by simp [hb]))

theorem matchEvalAt_tagCore {c : List Char} (hc : ']' ∉ c) :
    matchEvalAt (tagCore c) = some [] := by
  unfold matchEvalAt
  have hdw : (tagCore c).dropWhile Py.isPySpace = tagCore c :=
    Py.dropWhile_of_headOk (headOk_tagCore c)
  rw [hdw]
  have hpre : evalTagLit.isPrefixOf (tagCore c) = true :=
    List.isPrefixOf_iff_prefix.mpr ⟨' ' :: (c ++ [']']), rfl⟩
  rw [if_pos hpre]
  have hdrop : (tagCore c).drop 6 = ' ' :: (c ++ [']']) := by
    show (tagCore c).drop evalTagLit.length = ' ' :: (c ++ [']'])
    unfold tagCore
    rw [List.drop_left]
  rw [hdrop]
  have hsplit : ' ' :: (c ++ [']']) = (' ' :: c) ++ ']' :: [] := by simp
  rw [hsplit, dropWhile_to_bracket]
  intro a ha
  rcases List.mem_cons.mp ha with h | h
  · subst h; decide
  · exact fun hEq => hc (hEq ▸ h)

theorem matchEvalAt_space_tagCore {c : List Char} (hc : ']' ∉ c) :
    matchEvalAt (' ' :: tagCore c) = some [] := by
  have h1 : (' ' :: tagCore c).dropWhile Py.isPySpace = tagCore c := by
    rw [List.dropWhile_cons_of_pos (by decide)]
    exact Py.dropWhile_of_headOk (headOk_tagCore c)
  have h2 := matchEvalAt_tagCore hc
  unfold matchEvalAt at h2 ⊢
  rw [h1]
  rw [Py.dropWhile_of_headOk (headOk_tagCore c)] at h2
  exact h2

theorem isPrefixOf_dropWhile_false {pat l : List Char}
    (h : Py.hasSubstr pat l = false) :
    pat.isPrefixOf (l.dropWhile Py.isPySpace) = false := by
  by_contra hcon
  rw [Bool.not_eq_false] at hcon
  obtain ⟨t, ht⟩ := List.isPrefixOf_iff_prefix.mp hcon
  obtain ⟨u, hu⟩ := (List.dropWhile_suffix (l := l) Py.isPySpace)
  have : Py.hasSubstr pat l = true := by
    rw [Py.hasSubstr_iff]
    exact ⟨u, t, by rw [← hu, List.append_assoc, ht]⟩
  rw [this] at h
  exact absurd h (by simp)

theorem matchEvalAt_none_of_no_tag {l : List Char}
    (h : Py.hasSubstr evalTagLit l = false) : matchEvalAt l = none := by
  simp only [matchEvalAt]
  rw [isPrefixOf_dropWhile_false h]
  simp

theorem matchEvalAt_some_length {l r : List Char} (h : matchEvalAt l = some r) :
    r.length < l.length := by
  unfold matchEvalAt at h
  by_cases hp : evalTagLit.isPrefixOf (l.dropWhile Py.isPySpace) = true
  · rw [if_pos hp] at h
    rcases hd : ((l.dropWhile Py.isPySpace).drop 6).dropWhile (fun c => c != ']') with - | ⟨x, r'⟩
    · rw [hd] at h
      exact absurd h (by simp)
    · rw [hd] at h
      have hr : r' = r := by injection h
      have h6 : 6 ≤ (l.dropWhile Py.isPySpace).length := by
        have := (List.isPrefixOf_iff_prefix.mp hp).length_le
        simpa [evalTagLit] using this
    
      have h1 : (((l.dropWhile Py.isPySpace).drop 6).dropWhile (fun c => c != ']')).length ≤
          (l.dropWhile Py.isPySpace).length - 6 := by
        calc (((l.dropWhile Py.isPySpace).drop 6).dropWhile (fun c => c != ']')).length
            ≤ ((l.dropWhile Py.isPySpace).drop 6).length :=
            (List.dropWhile_suffix _).length_le
          _ = (l.dropWhile Py.isPySpace).length - 6 := by rw [List.length_drop]
      have h2 : (l.dropWhile Py.isPySpace).length ≤ l.length :=
        (List.dropWhile_suffix _).length_le
      rw [hd] at h1
      simp only [List.length_cons] at h1
      have hr2 : r'.length = r.length := by rw [hr]
      omega
  · rw [if_neg hp] at h
    exact absurd h (by simp)

theorem subEvalF_nil (f : Nat) : subEvalF f [] = [] := by
  cases f <;> rfl

theorem subEvalF_fuel {f₁ f₂ : Nat} {l : List Char} (h₁ : l.length ≤ f₁)
    (h₂ : l.length ≤ f₂) : subEvalF f₁ l = subEvalF f₂ l := by
  induction f₁ generalizing l f₂ with
  | zero =>
    have hl : l = [] := List.length_eq_zero.mp (le_antisymm h₁ (Nat.zero_le _))
    subst hl
    rw [subEvalF_nil, subEvalF_nil]
  | succ f ih =>
    cases l with
    | nil => rw [subEvalF_nil, subEvalF_nil]
    | cons c rest =>
      cases f₂ with
      | zero => simp at h₂
      | succ g =>
        show subEvalF (f + 1) (c :: rest) = subEvalF (g + 1) (c :: rest)
        simp only [subEvalF]
        cases hm : matchEvalAt (c :: rest) with
        | some r =>
          have hlen := matchEvalAt_some_length hm
          simp only [List.length_cons] at hlen h₁ h₂
          exact ih (by omega) (by omega)
        | none =>
          have : rest.length ≤ f := by simp at h₁; omega
          have hg : rest.length ≤ g := by simp at h₂; omega
          rw [ih this hg]

theorem subEvalF_no_tag {f : Nat} {l : List Char} (hf : l.length ≤ f)
    (h : Py.hasSubstr evalTagLit l = false) : subEvalF f l = l := by
  induction f generalizing l with
  | zero => rfl
  | succ f ih =>
    cases l with
    | nil => rw [subEvalF_nil]
    | cons c rest =>
      show subEvalF (f + 1) (c :: rest) = c :: rest
      simp only [subEvalF]
      rw [matchEvalAt_none_of_no_tag h]
      have hrest : Py.hasSubstr evalTagLit rest = false := by
        have := h
        unfold Py.hasSubstr at this
        rcases Bool.or_eq_false_iff.mp this with ⟨-, h2⟩
        exact h2
      have hlen : rest.length ≤ f := by simp at hf; omega
      rw [ih hlen hrest]

theorem subEval_no_tag {l : List Char} (h : Py.hasSubstr evalTagLit l = false) :
    subEval l = l :=
  subEvalF_no_tag (le_refl _) h

theorem strip_eval_no_tag {l : List Char} (h : Py.hasSubstr evalTagLit l = false) :
    strip_eval l = Py.pyStrip l := by
  unfold strip_eval
  by_cases hl : l = []
  · subst hl; rfl
  · rw [if_neg hl, subEval_no_tag h]

theorem dropWhile_append_of_nonspace {S Y : List Char}
    (hex : ∃ c ∈ S, Py.isPySpace c = false) :
    (S ++ Y).dropWhile Py.isPySpace = S.dropWhile Py.isPySpace ++ Y ∧
      S.dropWhile Py.isPySpace ≠ [] := by
  induction S with
  | nil =>
    obtain ⟨c, hc, -⟩ := hex
    exact absurd hc (by simp)
  | cons a S ih =>
    by_cases ha : Py.isPySpace a = true
    · obtain ⟨c, hc, hcs⟩ := hex
      have hcS : c ∈ S := by
        rcases List.mem_cons.mp hc with h | h
        · subst h; rw [ha] at hcs; exact absurd hcs (by simp)
        · exact h
      obtain ⟨ih1, ih2⟩ := ih ⟨c, hcS, hcs⟩
      rw [List.cons_append, List.dropWhile_cons_of_pos ha,
        List.dropWhile_cons_of_pos ha]
      exact ⟨ih1, ih2⟩
    · rw [List.cons_append, List.dropWhile_cons_of_neg ha,
        List.dropWhile_cons_of_neg ha]
      exact ⟨rfl, by simp⟩

theorem lastOk_suffix {E S : List Char} (h : Py.lastOk E = true)
    (hS : ∃ u, u ++ S = E) (hne : S ≠ []) : Py.lastOk S = true := by
  obtain ⟨u, hu⟩ := hS
  rw [← hu, Py.lastOk_append hne] at h
  exact h

theorem exists_nonspace_of_lastOk {S : List Char} (h : Py.lastOk S = true)
    (hne : S ≠ []) : ∃ c ∈ S, Py.isPySpace c = false := by
  unfold Py.lastOk Py.headOk at h
  rcases hrev : S.reverse with - | ⟨c, w⟩
  · exact absurd (by simpa using congrArg List.reverse hrev) hne
  · rw [hrev] at h
    refine ⟨c, ?_, by simpa using h⟩
    have : c ∈ S.reverse := by rw [hrev]; simp
    simpa using this

theorem matchEvalAt_extend_none {E : List Char} {a : Char} {T S : List Char}
    (hno : Py.hasSubstr evalTagLit E = false) (hlast : Py.lastOk E = true)
    (ha : a ∉ evalTagLit) (hS : ∃ u, u ++ S = E) (hSne : S ≠ []) :
    matchEvalAt (S ++ a :: T) = none := by
  have hSlast : Py.lastOk S = true := lastOk_suffix hlast hS hSne
  have hnons : ∃ c ∈ S, Py.isPySpace c = false := exists_nonspace_of_lastOk hSlast hSne
  obtain ⟨hdw, hDne⟩ := dropWhile_append_of_nonspace (Y := a :: T) hnons
  simp only [matchEvalAt]
  rw [hdw]
  have hpre : evalTagLit.isPrefixOf (S.dropWhile Py.isPySpace ++ a :: T) = false := by
    by_contra hcon
    rw [Bool.not_eq_false] at hcon
    obtain ⟨t, ht⟩ := List.isPrefixOf_iff_prefix.mp hcon
    obtain ⟨v, hv⟩ := (List.dropWhile_suffix (l := S) Py.isPySpace)
    rcases le_or_lt 6 (S.dropWhile Py.isPySpace).length with h6 | h6
    · have hp1 : evalTagLit <+: (S.dropWhile Py.isPySpace ++ a :: T) := ⟨t, ht⟩
      have hp2 : (S.dropWhile Py.isPySpace) <+: (S.dropWhile Py.isPySpace ++ a :: T) :=
        ⟨a :: T, rfl⟩
      have hp3 : evalTagLit <+: (S.dropWhile Py.isPySpace) :=
        List.prefix_of_prefix_length_le hp1 hp2 (by simpa [evalTagLit] using h6)
      obtain ⟨w, hw⟩ := hp3
      obtain ⟨u, hu⟩ := hS
      have : Py.hasSubstr evalTagLit E = true := by
        rw [Py.hasSubstr_iff]
        exact ⟨u ++ v, w, by rw [← hu, ← hv, ← hw]; simp⟩
      rw [this] at hno
      exact absurd hno (by simp)
    · have hdropL : (S.dropWhile Py.isPySpace ++ a :: T).drop
          (S.dropWhile Py.isPySpace).length = a :: T := List.drop_left _ _
      have hdropR : (evalTagLit ++ t).drop (S.dropWhile Py.isPySpace).length =
          evalTagLit.drop (S.dropWhile Py.isPySpace).length ++ t :=
        List.drop_append_of_le_length (by simpa [evalTagLit] using Nat.le_of_lt h6)
      rw [ht, hdropL] at hdropR
      have hdne : evalTagLit.drop (S.dropWhile Py.isPySpace).length ≠ [] := by
        intro hcon
        have := congrArg List.length hcon
        rw [List.length_drop] at this
        simp [evalTagLit] at this
        omega
      rcases hdd : evalTagLit.drop (S.dropWhile Py.isPySpace).length with - | ⟨d, ds⟩
      · exact absurd hdd hdne
      · rw [hdd, List.cons_append] at hdropR
        have hda : a = d := by injection hdropR
        have hdmem : d ∈ evalTagLit := List.mem_of_mem_drop (by rw [hdd]; simp)
        rw [← hda] at hdmem
        exact absurd hdmem ha
  rw [if_neg (by simp [hpre])]

theorem subEvalF_append {E : List Char} {a : Char} {T : List Char} {f : Nat}
    (hf : (E ++ a :: T).length ≤ f)
    (hno : Py.hasSubstr evalTagLit E = false) (hlast : Py.lastOk E = true)
    (ha : a ∉ evalTagLit) :
    subEvalF f (E ++ a :: T) = E ++ subEval (a :: T) := by
  induction E generalizing f with
  | nil =>
    rw [List.nil_append, List.nil_append]
    exact subEvalF_fuel (by simpa using hf) (le_refl _)
  | cons e E ih =>
    cases f with
    | zero => simp at hf
    | succ g =>
      have hmatch : matchEvalAt ((e :: E) ++ a :: T) = none :=
        matchEvalAt_extend_none hno hlast ha ⟨[], rfl⟩ (by simp)
      rw [List.cons_append] at hmatch ⊢
      show subEvalF (g + 1) (e :: (E ++ a :: T)) = e :: E ++ subEval (a :: T)
      simp only [subEvalF]
      rw [hmatch]
      have hnoE : Py.hasSubstr evalTagLit E = false := by
        have := hno
        unfold Py.hasSubstr at this
        rcases Bool.or_eq_false_iff.mp this with ⟨-, h2⟩
        exact h2
      have hlastE : Py.lastOk E = true := by
        cases E with
        | nil => rfl
        | cons x xs =>
          have : Py.lastOk ([e] ++ (x :: xs)) = Py.lastOk (x :: xs) :=
            Py.lastOk_append (by simp)
          rw [← this]
          exact hlast
      have hlen : (E ++ a :: T).length ≤ g := by
        simp only [List.cons_append, List.length_cons] at hf
        omega
      rw [ih hlen hnoE hlastE]
      rfl

theorem subEval_append {E : List Char} {a : Char} {T : List Char}
    (hno : Py.hasSubstr evalTagLit E = false) (hlast : Py.lastOk E = true)
    (ha : a ∉ evalTagLit) :
    subEval (E ++ a :: T) = E ++ subEval (a :: T) :=
  subEvalF_append (le_refl _) hno hlast ha

theorem subEval_of_match_nil {c : Char} {rest : List Char}
    (h : matchEvalAt (c :: rest) = some []) : subEval (c :: rest) = [] := by
  show subEvalF (c :: rest).length (c :: rest) = []
  rw [List.length_cons]
  show subEvalF (rest.length + 1) (c :: rest) = []
  simp only [subEvalF]
  rw [h]
  exact subEvalF_nil _

theorem tagCore_ne_nil (c : List Char) : tagCore c ≠ [] := by
  rw [tagCore_assoc]
  simp

theorem strip_eval_tagCore {c : List Char} (hc : ']' ∉ c) :
    strip_eval (tagCore c) = [] := by
  unfold strip_eval
  rw [if_neg (tagCore_ne_nil c)]
  have h1 : subEval (tagCore c) = [] := by
    have hm := matchEvalAt_tagCore hc
    rcases htag : tagCore c with - | ⟨x, rest⟩
    · exact absurd htag (tagCore_ne_nil c)
    · rw [htag] at hm
      exact subEval_of_match_nil hm
  rw [h1]
  rfl

theorem lastOk_space_tagCore (c : List Char) : Py.lastOk (' ' :: tagCore c) = true := by
  have h : ' ' :: tagCore c = [' '] ++ tagCore c := rfl
  rw [h, Py.lastOk_append (tagCore_ne_nil c)]
  exact lastOk_tagCore c

theorem pyStrip_space_tagCore {c : List Char} :
    Py.pyStrip (' ' :: tagCore c) = tagCore c := by
  unfold Py.pyStrip Py.stripLeft
  rw [List.dropWhile_cons_of_pos (by decide)]
  rw [Py.dropWhile_of_headOk (headOk_tagCore c)]
  exact Py.stripRight_of_lastOk (lastOk_tagCore c)

theorem strip_eval_build_plain {E curr : List Char}
    (hE : Py.pyStrip E = E) (hno : Py.hasSubstr evalTagLit E = false) (hc : ']' ∉ curr) :
    Py.pyStrip (E ++ ' ' :: tagCore curr) =
      (if E = [] then tagCore curr else E ++ ' ' :: tagCore curr) ∧
    strip_eval (Py.pyStrip (E ++ ' ' :: tagCore curr)) = E := by
  have hlastE : Py.lastOk E = true := by rw [← hE]; exact Py.lastOk_pyStrip E
  cases E with
  | nil =>
    rw [if_pos rfl, List.nil_append]
    exact ⟨pyStrip_space_tagCore, by rw [pyStrip_space_tagCore]; exact strip_eval_tagCore hc⟩
  | cons e E' =>
    have hne : (e :: E') ≠ [] := by simp
    have hheadE : Py.headOk (e :: E') = true := by
      rw [← hE]
      exact Py.headOk_pyStrip (e :: E')
    have hheadA : Py.headOk ((e :: E') ++ ' ' :: tagCore curr) = true := by
      rw [Py.headOk_append hne]
      exact hheadE
    have hlastA : Py.lastOk ((e :: E') ++ ' ' :: tagCore curr) = true := by
      rw [Py.lastOk_append (by simp)]
      exact lastOk_space_tagCore curr
    have hA : Py.pyStrip ((e :: E') ++ ' ' :: tagCore curr) =
        (e :: E') ++ ' ' :: tagCore curr := Py.pyStrip_of_ok hheadA hlastA
    rw [if_neg hne, hA]
    refine ⟨rfl, ?_⟩
    have hAeq : (e :: E') ++ ' ' :: tagCore curr = e :: (E' ++ ' ' :: tagCore curr) := rfl
    have hAne : (e :: E') ++ ' ' :: tagCore curr ≠ [] := by
      rw [hAeq]
      simp
    unfold strip_eval
    rw [if_neg hAne]
    have hsub : subEval ((e :: E') ++ ' ' :: tagCore curr) =
        (e :: E') ++ subEval (' ' :: tagCore curr) :=
      subEval_append hno hlastE (by decide)
    have hsub2 : subEval (' ' :: tagCore curr) = [] :=
      subEval_of_match_nil (matchEvalAt_space_tagCore hc)
    rw [hsub, hsub2, List.append_nil]
    exact hE

/-- C4 fails on the code when a non-empty label and a best line are present:
the second pass strips only the embedded evaluation tag, not the previously
appended label/variation text, and then appends all of it again.  Concrete
input: empty prior comment, evaluations `0.50` and `-2.50`, label
`"Blunder. "`, best line `["Nf3"]`, White to move at move 1. -/
theorem C4_counterexample :
    AnalyseGames.build_comment
        (AnalyseGames.build_comment [] "0.50".toList "-2.50".toList "Blunder. ".toList
          ["Nf3".toList] true 1)
        "0.50".toList "-2.50".toList "Blunder. ".toList ["Nf3".toList] true 1 ≠
      AnalyseGames.build_comment [] "0.50".toList "-2.50".toList "Blunder. ".toList
        ["Nf3".toList] true 1 := by
  decide

/-- C4 amended: the Annotation Builder is idempotent on the plain path - when
the classification label or the best-line list is empty (so only the
evaluation tag is appended), for any existing comment free of `[%eval`
occurrences and any evaluation string free of `]`.  When a label and a best
line are present, re-running duplicates the label and variation text (see the
counterexample), although the embedded evaluation tag itself is still stripped
and re-appended exactly once. -/
theorem C4_amended_idempotent (existing prev curr label : List Char)
    (sans : List (List Char)) (turnWhite : Bool) (fm : Nat)
    (hno : Py.hasSubstr AnalyseGames.evalTagLit existing = false)
    (hc : ']' ∉ curr)
    (hempty : label = [] ∨ sans = []) :
    AnalyseGames.build_comment
        (AnalyseGames.build_comment existing prev curr label sans turnWhite fm)
        prev curr label sans turnWhite fm =
      AnalyseGames.build_comment existing prev curr label sans turnWhite fm := by
  have harm : ∀ ex : List Char,
      AnalyseGames.build_comment ex prev curr label sans turnWhite fm =
        Py.pyStrip (AnalyseGames.strip_eval ex ++ ' ' :: AnalyseGames.tagCore curr) := by
    intro ex
    rcases hempty with h | h
    · subst h; rfl
    · subst h; cases label <;> rfl
  rw [harm existing, harm]
  have hEeq : AnalyseGames.strip_eval existing = Py.pyStrip existing :=
    AnalyseGames.strip_eval_no_tag hno
  have hidem : Py.pyStrip (AnalyseGames.strip_eval existing) =
      AnalyseGames.strip_eval existing := by
    rw [hEeq]
    exact Py.pyStrip_idem existing
  have hnoE : Py.hasSubstr AnalyseGames.evalTagLit (AnalyseGames.strip_eval existing) = false := by
    rw [hEeq]
    exact Py.hasSubstr_pyStrip_false hno
  obtain ⟨-, hkey⟩ := AnalyseGames.strip_eval_build_plain hidem hnoE hc
  rw [hkey]

theorem C4_witness :
    AnalyseGames.build_comment
        (AnalyseGames.build_comment "note".toList "0.10".toList "0.20".toList [] [] true 1)
        "0.10".toList "0.20".toList [] [] true 1 =
      AnalyseGames.build_comment "note".toList "0.10".toList "0.20".toList [] [] true 1 :=
  C4_amended_idempotent "note".toList "0.10".toList "0.20".toList [] [] true 1
    (by decide) (by decide) (Or.inl rfl)

end AnalyseGames
